import Mathlib

/-!
Verification of the loyalty-loop dashboard core pipeline
(`03_calculate_rfm.py` and `04_create_snapshots.py`) against its
natural-language specification.

The pipeline is embedded shallowly: pandas DataFrames become lists of
structures, timestamps become a `Date` structure (absolute month index plus
1-based day of month) ordered lexicographically — which agrees with timestamp
order on valid calendar dates — and groupby/merge/ffill/rolling operations
become explicit list computations.
-/

namespace LoyaltyLoop

/-- A calendar date: `m` is the absolute month index (`year * 12 + month0`),
`d` the 1-based day of that month.  Ordered lexicographically, which on valid
dates coincides with the timestamp order pandas uses. -/
structure Date where
  m : Nat
  d : Nat
deriving DecidableEq, Repr, Inhabited

def dateToLex (dt : Date) : Lex (Nat × Nat) := toLex (dt.m, dt.d)

theorem dateToLex_injective : Function.Injective dateToLex := by
  intro a b h
  cases a
  cases b
  simpa [dateToLex, Prod.ext_iff] using h

instance : LinearOrder Date := LinearOrder.lift' dateToLex dateToLex_injective

theorem Date.le_iff {a b : Date} : a ≤ b ↔ a.m < b.m ∨ (a.m = b.m ∧ a.d ≤ b.d) := by
  show dateToLex a ≤ dateToLex b ↔ _
  rw [dateToLex, dateToLex, Prod.Lex.le_iff]

theorem Date.le_of_m_lt {a b : Date} (h : a.m < b.m) : a ≤ b :=
  Date.le_iff.mpr (Or.inl h)

theorem Date.m_le_of_le {a b : Date} (h : a ≤ b) : a.m ≤ b.m := by
  rcases Date.le_iff.mp h with h | ⟨h, _⟩
  · exact Nat.le_of_lt h
  · exact Nat.le_of_eq h

/-- Gregorian leap-year rule. -/
def isLeapYear (y : Nat) : Bool :=
  (y % 4 == 0 && y % 100 != 0) || (y % 400 == 0)

/-- Number of days of the calendar month with absolute index `am`
(month 0 of a year is January). -/
def daysInMonth (am : Nat) : Nat :=
  if am % 12 == 1 then (if isLeapYear (am / 12) then 29 else 28)
  else if am % 12 == 3 || am % 12 == 5 || am % 12 == 8 || am % 12 == 10 then 30
  else 31

theorem daysInMonth_le_31 (am : Nat) : daysInMonth am ≤ 31 := by
  unfold daysInMonth
  split
  · split <;> omega
  · split <;> omega

theorem one_le_daysInMonth (am : Nat) : 1 ≤ daysInMonth am := by
  unfold daysInMonth
  split
  · split <;> omega
  · split <;> omega

/-- Absolute day number of a date: days of all preceding months plus the
day of month.  Differences of `absDay` are the day counts that pandas
computes for `Timedelta.days` on valid dates. -/
def absDay (dt : Date) : Nat :=
  ((List.range dt.m).map daysInMonth).sum + dt.d

/-- The last calendar day of the month with index `am`. -/
def monthEndDate (am : Nat) : Date := ⟨am, daysInMonth am⟩

/-- `max` of a list, `none` on the empty list: the embedding of a pandas
`max` aggregate (which yields NaN/NaT on an empty group). -/
def listMax? {α : Type} [LinearOrder α] : List α → Option α
  | [] => none
  | x :: xs => some (xs.foldl max x)

/-- `min` of a list, `none` on the empty list. -/
def listMin? {α : Type} [LinearOrder α] : List α → Option α
  | [] => none
  | x :: xs => some (xs.foldl min x)

def optionMax {α : Type} [LinearOrder α] : Option α → Option α → Option α
  | none, b => b
  | some a, none => some a
  | some a, some b => some (max a b)

section ListMaxLemmas

variable {α : Type} [LinearOrder α]

theorem foldl_max_le_iff (xs : List α) (x c : α) :
    xs.foldl max x ≤ c ↔ x ≤ c ∧ ∀ y ∈ xs, y ≤ c := by
  induction xs generalizing x with
  | nil => simp
  | cons z zs ih =>
    simp only [List.foldl_cons, ih, max_le_iff, List.mem_cons]
    constructor
    · rintro ⟨⟨hx, hz⟩, hall⟩
      exact ⟨hx, fun y hy => by rcases hy with rfl | hy; exact hz; exact hall y hy⟩
    · rintro ⟨hx, hall⟩
      exact ⟨⟨hx, hall z (Or.inl rfl)⟩, fun y hy => hall y (Or.inr hy)⟩

theorem le_foldl_max_self (xs : List α) (x : α) : x ≤ xs.foldl max x := by
  induction xs generalizing x with
  | nil => simp
  | cons z zs ih => exact le_trans (le_max_left x z) (ih (max x z))

theorem le_foldl_max_of_mem {xs : List α} {y : α} (hy : y ∈ xs) (x : α) :
    y ≤ xs.foldl max x := by
  induction xs generalizing x with
  | nil => cases hy
  | cons z zs ih =>
    rcases List.mem_cons.mp hy with rfl | hy
    · exact le_trans (le_max_right x y) (le_foldl_max_self zs (max x y))
    · exact ih hy (max x z)

theorem foldl_max_mem (xs : List α) (x : α) : xs.foldl max x = x ∨ xs.foldl max x ∈ xs := by
  induction xs generalizing x with
  | nil => simp
  | cons z zs ih =>
    simp only [List.foldl_cons]
    rcases ih (max x z) with h | h
    · rcases max_choice x z with hm | hm
      · rw [hm] at h ⊢
        exact Or.inl h
      · rw [hm] at h ⊢
        rw [h]
        exact Or.inr (List.mem_cons_self z zs)
    · exact Or.inr (List.mem_cons_of_mem z h)

theorem listMax?_eq_none_iff {l : List α} : listMax? l = none ↔ l = [] := by
  cases l <;> simp [listMax?]

theorem listMax?_mem {l : List α} {a : α} (h : listMax? l = some a) : a ∈ l := by
  cases l with
  | nil => simp [listMax?] at h
  | cons x xs =>
    simp only [listMax?, Option.some.injEq] at h
    rcases foldl_max_mem xs x with h' | h'
    · rw [← h, h']
      exact List.mem_cons_self x xs
    · rw [← h]
      exact List.mem_cons_of_mem x h'

theorem le_listMax? {l : List α} {x a : α} (hx : x ∈ l) (h : listMax? l = some a) : x ≤ a := by
  cases l with
  | nil => cases hx
  | cons z zs =>
    simp only [listMax?, Option.some.injEq] at h
    rcases List.mem_cons.mp hx with rfl | hx
    · rw [← h]
      exact le_foldl_max_self zs x
    · rw [← h]
      exact le_foldl_max_of_mem hx z

theorem foldl_max_max (xs : List α) (x z : α) :
    xs.foldl max (max x z) = max x (xs.foldl max z) := by
  induction xs generalizing z with
  | nil => simp
  | cons w ws ih =>
    simp only [List.foldl_cons]
    rw [max_assoc, ih]

theorem listMax?_cons (x : α) (l : List α) :
    listMax? (x :: l) = optionMax (some x) (listMax? l) := by
  cases l with
  | nil => simp [listMax?, optionMax]
  | cons z zs =>
    simp only [listMax?, optionMax, Option.some.injEq, List.foldl_cons]
    exact foldl_max_max zs x z

theorem optionMax_assoc (a b c : Option α) :
    optionMax (optionMax a b) c = optionMax a (optionMax b c) := by
  cases a <;> cases b <;> cases c <;> simp [optionMax, max_assoc]

theorem optionMax_comm (a b : Option α) : optionMax a b = optionMax b a := by
  cases a <;> cases b <;> simp [optionMax, max_comm]

theorem optionMax_none_right (a : Option α) : optionMax a none = a := by
  cases a <;> rfl

theorem optionMax_some_both (x : α) (a b : Option α) :
    optionMax (optionMax (some x) a) (optionMax (some x) b) =
      optionMax (some x) (optionMax a b) := by
  cases a <;> cases b <;>
    simp [optionMax, max_assoc, max_comm, max_left_comm, max_self]

/-- Splitting a filtered maximum along a disjunction of predicates. -/
theorem listMax?_filter_or (l : List α) (p q r : α → Bool)
    (h : ∀ x ∈ l, p x = (q x || r x)) :
    listMax? (l.filter p) = optionMax (listMax? (l.filter q)) (listMax? (l.filter r)) := by
  induction l with
  | nil => simp [listMax?, optionMax]
  | cons x xs ih =>
    have hx := h x (List.mem_cons_self x xs)
    have ihx := ih (fun y hy => h y (List.mem_cons_of_mem x hy))
    by_cases hq : q x = true
    · by_cases hr : r x = true
      · have hp : p x = true := by rw [hx, hq]; simp
        rw [List.filter_cons_of_pos hp, List.filter_cons_of_pos hq,
          List.filter_cons_of_pos hr, listMax?_cons, listMax?_cons, listMax?_cons, ihx,
          optionMax_some_both]
      · have hr' : r x = false := by simpa using hr
        have hp : p x = true := by rw [hx, hq]; simp
        rw [List.filter_cons_of_pos hp, List.filter_cons_of_pos hq,
          List.filter_cons_of_neg (by simp [hr']), listMax?_cons, listMax?_cons, ihx,
          optionMax_assoc]
    · have hq' : q x = false := by simpa using hq
      by_cases hr : r x = true
      · have hp : p x = true := by rw [hx, hq', hr]; simp
        rw [List.filter_cons_of_pos hp, List.filter_cons_of_pos hr,
          List.filter_cons_of_neg (by simp [hq']), listMax?_cons, listMax?_cons, ihx,
          ← optionMax_assoc, optionMax_comm (some x) _, optionMax_assoc]
      · have hr' : r x = false := by simpa using hr
        have hp : p x = false := by rw [hx, hq', hr']; simp
        rw [List.filter_cons_of_neg (by simp [hp]),
          List.filter_cons_of_neg (by simp [hq']),
          List.filter_cons_of_neg (by simp [hr']), ihx]

end ListMaxLemmas

/-- Fuel-indexed worker for `uniqueFirst`; the fuel only needs to dominate
the list length, which keeps the recursion structural (and so computable
inside the kernel). -/
def uniqueFirstAux : Nat → List Nat → List Nat
  | _, [] => []
  | 0, _ :: _ => []
  | Nat.succ n, x :: xs => x :: uniqueFirstAux n (xs.filter (fun y => y != x))

/-- First-occurrence deduplication: the embedding of `pandas.unique` /
`Series.nunique` (order of first appearance, no duplicates). -/
def uniqueFirst (l : List Nat) : List Nat := uniqueFirstAux l.length l

theorem uniqueFirstAux_nil (n : Nat) : uniqueFirstAux n [] = [] := by
  cases n <;> rfl

theorem uniqueFirstAux_succ (n x : Nat) (xs : List Nat) :
    uniqueFirstAux (n + 1) (x :: xs) =
      x :: uniqueFirstAux n (xs.filter (fun y => y != x)) := rfl

theorem uniqueFirstAux_fuel : ∀ (n m : Nat) (l : List Nat),
    l.length ≤ n → l.length ≤ m → uniqueFirstAux n l = uniqueFirstAux m l := by
  intro n
  induction n with
  | zero =>
    intro m l h1 _
    cases l with
    | nil => rw [uniqueFirstAux_nil, uniqueFirstAux_nil]
    | cons x xs => simp at h1
  | succ n ih =>
    intro m l h1 h2
    cases l with
    | nil => rw [uniqueFirstAux_nil, uniqueFirstAux_nil]
    | cons x xs =>
      cases m with
      | zero => simp at h2
      | succ m =>
        rw [uniqueFirstAux_succ, uniqueFirstAux_succ]
        have hf1 : (xs.filter (fun y => y != x)).length ≤ n :=
          le_trans (List.length_filter_le _ _) (by simpa using h1)
        have hf2 : (xs.filter (fun y => y != x)).length ≤ m :=
          le_trans (List.length_filter_le _ _) (by simpa using h2)
        rw [ih m _ hf1 hf2]

def insertSorted (x : Nat) : List Nat → List Nat
  | [] => [x]
  | y :: ys => if x ≤ y then x :: y :: ys else y :: insertSorted x ys

/-- Ascending sort of a key list, as `pandas.groupby` sorts group keys. -/
def sortNat (l : List Nat) : List Nat := l.foldr insertSorted []

/-- One cleaned transaction line item (one row of `fact_transactions.csv`). -/
structure Txn where
  household_key : Nat
  basket_id : Nat
  sales_value : Int
  date : Date
deriving DecidableEq, Repr, Inhabited

/-- The recency step function of `assign_strategic_scores`
(`03_calculate_rfm.py`, `get_r_score`). -/
def get_r_score (days : Int) : Nat :=
  if days ≤ 7 then 5
  else if days ≤ 14 then 4
  else if days ≤ 30 then 3
  else if days ≤ 60 then 2
  else 1

/-- One row of the raw RFM aggregate produced by `calculate_rfm`. -/
structure RfmRow where
  household_key : Nat
  recency_days : Int
  frequency : Nat
  monetary : Int
deriving DecidableEq, Repr, Inhabited

/-- `calculate_rfm` of `03_calculate_rfm.py`: recency relative to the maximum
transaction date, frequency as distinct basket count, monetary as summed
sales, one row per household key in the sorted groupby order. -/
def calculate_rfm (txns : List Txn) : List RfmRow :=
  match listMax? (txns.map (fun t => t.date)) with
  | none => []
  | some analysisDate =>
    (sortNat (uniqueFirst (txns.map (fun t => t.household_key)))).map (fun k =>
      let mine := txns.filter (fun t => t.household_key == k)
      { household_key := k
        recency_days :=
          (absDay analysisDate : Int) -
            (absDay ((listMax? (mine.map (fun t => t.date))).getD ⟨0, 1⟩) : Int)
        frequency := (uniqueFirst (mine.map (fun t => t.basket_id))).length
        monetary := (mine.map (fun t => t.sales_value)).sum })

/-- The strict order that ordinal ranking sorts by: series value first,
series position as the tie-break. -/
def lexLt (l : List Int) (j i : Nat) : Prop :=
  l.getD j 0 < l.getD i 0 ∨ (l.getD j 0 = l.getD i 0 ∧ j < i)

instance (l : List Int) (j i : Nat) : Decidable (lexLt l j i) := by
  unfold lexLt
  infer_instance

/-- Ordinal rank of position `i` in the series `l`: pandas
`Series.rank` with method first, which counts every position strictly
smaller in the (value, position) lexicographic order, ties going to the
earlier position. -/
def rankAt (l : List Int) (i : Nat) : Nat :=
  1 + ((Finset.range l.length).filter (fun j => lexLt l j i)).card

/-- The full ordinal rank series of `l` (rank of position 0, 1, ...). -/
def rankFirst (l : List Int) : List Nat :=
  (List.range l.length).map (rankAt l)

/-- The bin (1..4) that pd.qcut with 4 quantile bins assigns to a value `r`
drawn from the ordinal ranks 1..n.  The linearly interpolated quartile edges
of {1,...,n} are 1 + (n-1)*j/4 for j = 0..4; intervals are right-closed and
the lowest edge is included, so `r` lands in the first bin `j` with
4*(r-1) ≤ (n-1)*j. -/
def qcutBin (n r : Nat) : Nat :=
  if 4 * (r - 1) ≤ (n - 1) * 1 then 1
  else if 4 * (r - 1) ≤ (n - 1) * 2 then 2
  else if 4 * (r - 1) ≤ (n - 1) * 3 then 3
  else 4

/-- Composition performed on each metric column: ordinal rank, then qcut
into 4 labelled bins. -/
def qcutScores (vals : List Int) : List Nat :=
  (rankFirst vals).map (qcutBin vals.length)

/-- The active subpopulation mask `R_Score >= 3` of
`assign_strategic_scores`, as the filtered row list. -/
def activeRows (rfm : List RfmRow) : List RfmRow :=
  rfm.filter (fun row => decide (3 ≤ get_r_score row.recency_days))

/-- One row of the final RFM table with all scores attached. -/
structure ScoredRow where
  household_key : Nat
  recency_days : Int
  frequency : Nat
  monetary : Int
  r_score : Nat
  f_score : Nat
  m_score : Nat
deriving DecidableEq, Repr, Inhabited

def toScored (row : RfmRow) (f m : Nat) : ScoredRow :=
  { household_key := row.household_key, recency_days := row.recency_days,
    frequency := row.frequency, monetary := row.monetary,
    r_score := get_r_score row.recency_days, f_score := f, m_score := m }

/-- Walks the rfm rows in order; rows of the active subpopulation consume
the next (f, m) score pair — the positional alignment of the pandas
`.loc[active_mask]` assignment — and every other row receives the
`fillna(1)` default. -/
def mergeScores : List RfmRow → List (Nat × Nat) → List ScoredRow
  | [], _ => []
  | row :: rest, scores =>
    if 3 ≤ get_r_score row.recency_days then
      match scores with
      | s :: srest => toScored row s.1 s.2 :: mergeScores rest srest
      | [] => toScored row 1 1 :: mergeScores rest []
    else toScored row 1 1 :: mergeScores rest scores

/-- `assign_strategic_scores` of `03_calculate_rfm.py`.  F/M scores come
from ordinal-ranking the active subpopulation and qcutting the ranks into 4
bins.  pd.qcut raises ValueError exactly when its bin edges collide; on the
distinct ranks 1..n the quartile edges are pairwise distinct iff 2 ≤ n, so
the except-branch (every active row scored 1, plus a printed warning) runs
iff the active subpopulation has at most one member.  The returned Bool is
that warning signal. -/
def assign_strategic_scores (rfm : List RfmRow) : List ScoredRow × Bool :=
  if 2 ≤ (activeRows rfm).length then
    (mergeScores rfm
      ((qcutScores ((activeRows rfm).map (fun r => (r.frequency : Int)))).zip
        (qcutScores ((activeRows rfm).map (fun r => r.monetary)))), false)
  else
    (mergeScores rfm
      (((activeRows rfm).map (fun _ => 1)).zip ((activeRows rfm).map (fun _ => 1))), true)

/-- `get_segment` of `assign_segments` (`03_calculate_rfm.py`). -/
def get_segment (r f : Nat) : String :=
  if r = 5 ∧ f = 4 then "Champions"
  else if 4 ≤ r ∧ 3 ≤ f then "Loyalists"
  else if 4 ≤ r ∧ f ≤ 2 then "Potential Loyal"
  else if r = 3 then "At Risk (Intervention)"
  else if r = 2 then "Hibernating"
  else "Lost"

/-- `get_lifecycle` of `assign_segments` (`03_calculate_rfm.py`). -/
def get_lifecycle (r : Nat) : String :=
  if 4 ≤ r then "Active"
  else if r = 3 then "At-Risk"
  else "Churned"

/-- The specification's reading of the segment table: an ordered decision
list of (predicate, label) pairs, evaluated top to bottom, first match
wins, defaulting to Lost.  Stated separately from `get_segment` so that the
code's nested conditionals can be proved to refine it. -/
def segmentDecisionList : List ((Nat × Nat → Bool) × String) :=
  [ (fun p => p.1 == 5 && p.2 == 4, "Champions"),
    (fun p => decide (4 ≤ p.1) && decide (3 ≤ p.2), "Loyalists"),
    (fun p => decide (4 ≤ p.1) && decide (p.2 ≤ 2), "Potential Loyal"),
    (fun p => p.1 == 3, "At Risk (Intervention)"),
    (fun p => p.1 == 2, "Hibernating") ]

/-- First-match-wins evaluation of a decision list. -/
def firstMatch : List ((Nat × Nat → Bool) × String) → String → Nat × Nat → String
  | [], deflt, _ => deflt
  | rule :: rest, deflt, p => if rule.1 p then rule.2 else firstMatch rest deflt p

/-- One row of the spine after the monthly aggregates have been merged on. -/
structure SnapshotRow where
  household_key : Nat
  month : Nat
  monthly_spend : Int
  monthly_visits : Nat
  last_purchase_this_month : Option Date
deriving DecidableEq, Repr, Inhabited

/-- Month index of the minimum transaction date (the `min().replace(day:=1)`
of `create_customer_month_spine`, kept at month granularity). -/
def minMonth (txns : List Txn) : Nat :=
  ((listMin? (txns.map (fun t : Txn => t.date))).getD default).m

/-- Month index of the maximum transaction date. -/
def maxMonth (txns : List Txn) : Nat :=
  ((listMax? (txns.map (fun t : Txn => t.date))).getD default).m

/-- The inclusive run of month indices from the minimum to the maximum
transaction month (`pd.date_range` with month-start frequency). -/
def monthRange (txns : List Txn) : List Nat :=
  List.range' (minMonth txns) (maxMonth txns + 1 - minMonth txns)

/-- `create_customer_month_spine` of `04_create_snapshots.py`: the cross
product of every distinct household key with every month of the dataset's
month range. -/
def create_customer_month_spine (txns : List Txn) : List (Nat × Nat) :=
  (uniqueFirst (txns.map (fun t => t.household_key))).flatMap
    (fun k => (monthRange txns).map (fun m => (k, m)))

/-- The transactions of household `k` dated inside month `m` (the groupby
cell of the monthly aggregation). -/
def txnsIn (txns : List Txn) (k m : Nat) : List Txn :=
  txns.filter (fun t => t.household_key == k && t.date.m == m)

/-- The monthly aggregate attached to one spine cell: summed spend,
distinct-basket visit count, and the latest purchase date of the month
(`none` when the customer bought nothing that month — the left-join NaN,
with spend and visits filled to 0). -/
def metricFor (txns : List Txn) (p : Nat × Nat) : SnapshotRow :=
  { household_key := p.1
    month := p.2
    monthly_spend := ((txnsIn txns p.1 p.2).map (fun t => t.sales_value)).sum
    monthly_visits :=
      (uniqueFirst ((txnsIn txns p.1 p.2).map (fun t => t.basket_id))).length
    last_purchase_this_month := listMax? ((txnsIn txns p.1 p.2).map (fun t => t.date)) }

/-- `calculate_monthly_metrics` of `04_create_snapshots.py`: per-month sums
and distinct-basket counts left-joined onto the spine, missing months
filled with spend 0 and visits 0. -/
def calculate_monthly_metrics (txns : List Txn) (spine : List (Nat × Nat)) :
    List SnapshotRow :=
  spine.map (metricFor txns)

/-- One row of the final monthly snapshot table. -/
structure EnrichedRow where
  household_key : Nat
  month : Nat
  monthly_spend : Int
  monthly_visits : Nat
  last_purchase_anytime : Option Date
  month_end : Date
  lapsed_days : Int
  rolling_3m_spend : Int
  status : String
deriving DecidableEq, Repr, Inhabited

/-- The groupwise forward fill of `Last_Purchase_This_Month`: each row is
paired with the most recent known purchase date at that row, carrying the
accumulator across months of one household. -/
def ffillLast : Option Date → List SnapshotRow → List (SnapshotRow × Option Date)
  | _, [] => []
  | acc, r :: rest =>
    match r.last_purchase_this_month with
    | some dt => (r, some dt) :: ffillLast (some dt) rest
    | none => (r, acc) :: ffillLast acc rest

/-- `rolling(window:=3, min_periods:=1).sum()` over one household's
month-ordered spend series. -/
def rolling3 (spends : List Int) : List Int :=
  (List.range spends.length).map (fun i => ((spends.take (i + 1)).drop (i - 2)).sum)

/-- The `np.select` status classification of `calculate_history_and_status`,
conditions evaluated in their listed priority order. -/
def statusOf (lapsed : Int) : String :=
  if lapsed ≤ 14 then "Active"
  else if lapsed ≤ 30 then "At-Risk"
  else if lapsed < 999 then "Churned"
  else "New/Unknown"

/-- Builds one enriched row: month end, lapsed days (sentinel 999 when the
forward-filled purchase date is still unknown), rolling spend and status. -/
def enrichOne (r : SnapshotRow) (lp : Option Date) (roll : Int) : EnrichedRow :=
  let lapsed : Int :=
    match lp with
    | some dt => (absDay (monthEndDate r.month) : Int) - (absDay dt : Int)
    | none => 999
  { household_key := r.household_key, month := r.month,
    monthly_spend := r.monthly_spend, monthly_visits := r.monthly_visits,
    last_purchase_anytime := lp, month_end := monthEndDate r.month,
    lapsed_days := lapsed, rolling_3m_spend := roll, status := statusOf lapsed }

/-- Enrichment of one household's month-ordered series: forward fill,
lapsed days, rolling spend and status per row. -/
def enrichSeries (series : List SnapshotRow) : List EnrichedRow :=
  ((ffillLast none series).zip (rolling3 (series.map (fun r => r.monthly_spend)))).map
    (fun p => enrichOne p.1.1 p.1.2 p.2)

/-- `calculate_history_and_status` of `04_create_snapshots.py`: sort by
household and month, then apply the groupwise enrichment per household.
Each household's rows already carry ascending months from the spine, so the
sort reduces to processing households in ascending key order. -/
def calculate_history_and_status (snapshot : List SnapshotRow) : List EnrichedRow :=
  (sortNat (uniqueFirst (snapshot.map (fun r => r.household_key)))).flatMap
    (fun k => enrichSeries (snapshot.filter (fun r => r.household_key == k)))

/-- The composed snapshot pipeline of `04_create_snapshots.py`. -/
def snapshots (txns : List Txn) : List EnrichedRow :=
  calculate_history_and_status
    (calculate_monthly_metrics txns (create_customer_month_spine txns))

/-! ### Facts about the scoring stage -/

theorem get_r_score_bounds (d : Int) : 1 ≤ get_r_score d ∧ get_r_score d ≤ 5 := by
  unfold get_r_score
  split_ifs <;> omega

theorem mergeScores_nil (scores : List (Nat × Nat)) : mergeScores [] scores = [] := rfl

theorem mergeScores_cons (row : RfmRow) (rest : List RfmRow)
    (scores : List (Nat × Nat)) :
    mergeScores (row :: rest) scores =
      if 3 ≤ get_r_score row.recency_days then
        match scores with
        | s :: srest => toScored row s.1 s.2 :: mergeScores rest srest
        | [] => toScored row 1 1 :: mergeScores rest []
      else toScored row 1 1 :: mergeScores rest scores := rfl

theorem mergeScores_facts (l : List RfmRow) (scores : List (Nat × Nat)) :
    ∀ s ∈ mergeScores l scores,
      s.r_score = get_r_score s.recency_days ∧
      (s.r_score < 3 → s.f_score = 1 ∧ s.m_score = 1) := by
  induction l generalizing scores with
  | nil =>
    intro s hs
    simp [mergeScores] at hs
  | cons row rest ih =>
    intro s hs
    rw [mergeScores_cons] at hs
    by_cases hact : 3 ≤ get_r_score row.recency_days
    · rw [if_pos hact] at hs
      cases scores with
      | nil =>
        rcases List.mem_cons.mp hs with rfl | hs
        · exact ⟨rfl, fun _ => ⟨rfl, rfl⟩⟩
        · exact ih [] s hs
      | cons p ps =>
        rcases List.mem_cons.mp hs with rfl | hs
        · refine ⟨rfl, fun h => absurd h ?_⟩
          simp only [toScored]
          omega
        · exact ih ps s hs
    · rw [if_neg hact] at hs
      rcases List.mem_cons.mp hs with rfl | hs
      · exact ⟨rfl, fun _ => ⟨rfl, rfl⟩⟩
      · exact ih scores s hs

theorem mergeScores_all_one (l : List RfmRow) (scores : List (Nat × Nat))
    (hsc : ∀ p ∈ scores, p = (1, 1)) :
    ∀ s ∈ mergeScores l scores, s.f_score = 1 ∧ s.m_score = 1 := by
  induction l generalizing scores with
  | nil =>
    intro s hs
    simp [mergeScores] at hs
  | cons row rest ih =>
    intro s hs
    rw [mergeScores_cons] at hs
    by_cases hact : 3 ≤ get_r_score row.recency_days
    · rw [if_pos hact] at hs
      cases scores with
      | nil =>
        rcases List.mem_cons.mp hs with rfl | hs
        · exact ⟨rfl, rfl⟩
        · exact ih [] (by simp) s hs
      | cons p ps =>
        rcases List.mem_cons.mp hs with rfl | hs
        · have hp := hsc p (List.mem_cons_self p ps)
          rw [hp]
          exact ⟨rfl, rfl⟩
        · exact ih ps (fun q hq => hsc q (List.mem_cons_of_mem p hq)) s hs
    · rw [if_neg hact] at hs
      rcases List.mem_cons.mp hs with rfl | hs
      · exact ⟨rfl, rfl⟩
      · exact ih scores hsc s hs

/-- A sample rfm table with a single, inactive (recency 100 days) customer. -/
def exRfmInactive : List RfmRow := [⟨1, 100, 5, 50⟩]

/-- C1: r_score is the fixed step function of recency_days.  Every scored
row carries `r_score = get_r_score recency_days`, the score always lies in
1..5, the step intervals are exactly as specified, and the eight boundary
values fall on the stated sides. -/
theorem c1_r_score_step_function :
    (∀ rfm : List RfmRow, ∀ s ∈ (assign_strategic_scores rfm).1,
        s.r_score = get_r_score s.recency_days ∧ 1 ≤ s.r_score ∧ s.r_score ≤ 5) ∧
    (∀ d : Int,
        (get_r_score d = 5 ↔ d ≤ 7) ∧
        (get_r_score d = 4 ↔ 7 < d ∧ d ≤ 14) ∧
        (get_r_score d = 3 ↔ 14 < d ∧ d ≤ 30) ∧
        (get_r_score d = 2 ↔ 30 < d ∧ d ≤ 60) ∧
        (get_r_score d = 1 ↔ 60 < d)) ∧
    get_r_score 7 = 5 ∧ get_r_score 8 = 4 ∧ get_r_score 14 = 4 ∧ get_r_score 15 = 3 ∧
    get_r_score 30 = 3 ∧ get_r_score 31 = 2 ∧ get_r_score 60 = 2 ∧ get_r_score 61 = 1 := by
  refine ⟨?_, ?_, by decide, by decide, by decide, by decide, by decide, by decide,
    by decide, by decide⟩
  · intro rfm s hs
    have hmem : s ∈ (assign_strategic_scores rfm).1 := hs
    unfold assign_strategic_scores at hmem
    split at hmem <;>
      exact ⟨(mergeScores_facts _ _ s hmem).1,
        ((mergeScores_facts _ _ s hmem).1 ▸ get_r_score_bounds s.recency_days)⟩
  · intro d
    unfold get_r_score
    split_ifs <;> refine ⟨?_, ?_, ?_, ?_, ?_⟩ <;> constructor <;> intro h <;> omega

/-- Witness for C1 at a concrete pipeline run. -/
theorem c1_r_score_step_function_witness :
    (toScored ⟨1, 100, 5, 50⟩ 1 1).r_score =
        get_r_score (toScored ⟨1, 100, 5, 50⟩ 1 1).recency_days ∧
      1 ≤ (toScored ⟨1, 100, 5, 50⟩ 1 1).r_score ∧
      (toScored ⟨1, 100, 5, 50⟩ 1 1).r_score ≤ 5 :=
  c1_r_score_step_function.1 exRfmInactive (toScored ⟨1, 100, 5, 50⟩ 1 1) (by decide)

/-- C7: every customer outside the active subpopulation (r_score < 3)
receives f_score = m_score = 1, whatever its frequency and monetary. -/
theorem c7_inactive_scores_one (rfm : List RfmRow) :
    ∀ s ∈ (assign_strategic_scores rfm).1, s.r_score < 3 →
      s.f_score = 1 ∧ s.m_score = 1 := by
  intro s hs
  unfold assign_strategic_scores at hs
  split at hs <;> exact (mergeScores_facts _ _ s hs).2

/-- Witness for C7 at a concrete pipeline run. -/
theorem c7_inactive_scores_one_witness :
    (toScored ⟨1, 100, 5, 50⟩ 1 1).f_score = 1 ∧
      (toScored ⟨1, 100, 5, 50⟩ 1 1).m_score = 1 :=
  c7_inactive_scores_one exRfmInactive (toScored ⟨1, 100, 5, 50⟩ 1 1)
    (by decide) (by decide)

/-- C5: with at most one active customer the quantile binning cannot form
its 4 distinct edges; the scorer does not fail: it returns normally with
the warning flag raised and every (active) customer scored
f_score = m_score = 1. -/
theorem c5_degenerate_binning_degrades (rfm : List RfmRow)
    (h : (activeRows rfm).length ≤ 1) :
    (assign_strategic_scores rfm).2 = true ∧
      ∀ s ∈ (assign_strategic_scores rfm).1, s.f_score = 1 ∧ s.m_score = 1 := by
  have hcond : ¬ 2 ≤ (activeRows rfm).length := by omega
  unfold assign_strategic_scores
  rw [if_neg hcond]
  refine ⟨rfl, ?_⟩
  refine mergeScores_all_one _ _ ?_
  intro p hp
  rcases List.of_mem_zip hp with ⟨h1, h2⟩
  rcases List.mem_map.mp h1 with ⟨_, _, e1⟩
  rcases List.mem_map.mp h2 with ⟨_, _, e2⟩
  cases p
  simp_all

/-- Witness for C5 at a concrete degenerate run. -/
theorem c5_degenerate_binning_degrades_witness :
    (assign_strategic_scores exRfmInactive).2 = true :=
  (c5_degenerate_binning_degrades exRfmInactive (by decide)).1

/-- C8: the segment of (r_score, f_score) equals the spec's ordered
first-match-wins decision list with default Lost; it is total over the
score domain (always one of the six labels), and lifecycle_stage is the
stated total function of r_score alone. -/
theorem c8_segment_decision_list (r f : Nat) :
    get_segment r f = firstMatch segmentDecisionList "Lost" (r, f) ∧
    (get_segment r f = "Champions" ∨ get_segment r f = "Loyalists" ∨
      get_segment r f = "Potential Loyal" ∨
      get_segment r f = "At Risk (Intervention)" ∨
      get_segment r f = "Hibernating" ∨ get_segment r f = "Lost") ∧
    (get_lifecycle r = "Active" ↔ 4 ≤ r) ∧
    (get_lifecycle r = "At-Risk" ↔ r = 3) ∧
    (get_lifecycle r = "Churned" ↔ r ≤ 2) ∧
    (get_lifecycle r = "Active" ∨ get_lifecycle r = "At-Risk" ∨
      get_lifecycle r = "Churned") := by
  refine ⟨?_, ?_, ?_, ?_, ?_, ?_⟩
  · simp only [get_segment, firstMatch, segmentDecisionList, Bool.and_eq_true,
      beq_iff_eq, decide_eq_true_eq]
  · unfold get_segment
    split_ifs <;> simp
  · unfold get_lifecycle
    split_ifs
    all_goals simp_all
  · unfold get_lifecycle
    split_ifs
    all_goals simp_all
    all_goals omega
  · unfold get_lifecycle
    split_ifs
    all_goals simp_all
    all_goals omega
  · unfold get_lifecycle
    split_ifs
    all_goals simp

/-! ### Ordinal ranking and quartile binning (claim C6) -/

theorem lexLt_irrefl (l : List Int) (i : Nat) : ¬ lexLt l i i := by
  unfold lexLt
  omega

theorem lexLt_trans {l : List Int} {i j k : Nat} (h1 : lexLt l i j)
    (h2 : lexLt l j k) : lexLt l i k := by
  unfold lexLt at h1 h2 ⊢
  omega

theorem lexLt_total {l : List Int} {i j : Nat} (h : i ≠ j) :
    lexLt l i j ∨ lexLt l j i := by
  unfold lexLt
  omega

theorem one_le_rankAt (l : List Int) (i : Nat) : 1 ≤ rankAt l i :=
  Nat.le_add_right 1 _

theorem rankAt_le (l : List Int) {i : Nat} (hi : i < l.length) :
    rankAt l i ≤ l.length := by
  unfold rankAt
  have hsub : (Finset.range l.length).filter (fun j => lexLt l j i) ⊆
      (Finset.range l.length).erase i := by
    intro j hj
    simp only [Finset.mem_filter, Finset.mem_range] at hj
    refine Finset.mem_erase.mpr ⟨?_, Finset.mem_range.mpr hj.1⟩
    rintro rfl
    exact lexLt_irrefl l j hj.2
  have hc := Finset.card_le_card hsub
  rw [Finset.card_erase_of_mem (Finset.mem_range.mpr hi), Finset.card_range] at hc
  omega

theorem rankAt_lt_of_lexLt {l : List Int} {i j : Nat} (hi : i < l.length)
    (hlt : lexLt l i j) : rankAt l i < rankAt l j := by
  unfold rankAt
  have hss : (Finset.range l.length).filter (fun k => lexLt l k i) ⊂
      (Finset.range l.length).filter (fun k => lexLt l k j) := by
    rw [Finset.ssubset_iff_of_subset]
    · exact ⟨i, Finset.mem_filter.mpr ⟨Finset.mem_range.mpr hi, hlt⟩,
        fun hmem => lexLt_irrefl l i (Finset.mem_filter.mp hmem).2⟩
    · intro k hk
      rcases Finset.mem_filter.mp hk with ⟨hk1, hk2⟩
      exact Finset.mem_filter.mpr ⟨hk1, lexLt_trans hk2 hlt⟩
  exact Nat.add_lt_add_left (Finset.card_lt_card hss) 1

theorem rankAt_inj (l : List Int) {i j : Nat} (hi : i < l.length)
    (hj : j < l.length) (h : rankAt l i = rankAt l j) : i = j := by
  by_contra hne
  rcases lexLt_total hne with hlt | hlt
  · exact absurd h (Nat.ne_of_lt (rankAt_lt_of_lexLt hi hlt))
  · exact absurd h.symm (Nat.ne_of_lt (rankAt_lt_of_lexLt hj hlt))

theorem rankFirst_nodup (l : List Int) : (rankFirst l).Nodup := by
  refine List.Nodup.map_on ?_ (List.nodup_range l.length)
  intro i hi j hj hij
  exact rankAt_inj l (List.mem_range.mp hi) (List.mem_range.mp hj) hij

theorem rankAt_image (l : List Int) :
    (Finset.range l.length).image (rankAt l) = Finset.Icc 1 l.length := by
  have hsub : (Finset.range l.length).image (rankAt l) ⊆ Finset.Icc 1 l.length := by
    intro r hr
    rcases Finset.mem_image.mp hr with ⟨i, hi, rfl⟩
    exact Finset.mem_Icc.mpr ⟨one_le_rankAt l i, rankAt_le l (Finset.mem_range.mp hi)⟩
  have hcard : ((Finset.range l.length).image (rankAt l)).card = l.length := by
    rw [Finset.card_image_of_injOn, Finset.card_range]
    intro i hi j hj hij
    exact rankAt_inj l (by simpa using hi) (by simpa using hj) hij
  refine (Finset.eq_of_subset_of_card_le hsub ?_)
  rw [hcard, Nat.card_Icc]
  omega

theorem countP_range_eq_card (n : Nat) (q : Nat → Bool) :
    (List.range n).countP q = ((Finset.range n).filter (fun i => q i = true)).card := by
  induction n with
  | zero => simp
  | succ n ih =>
    rw [List.range_succ, List.countP_append, Finset.range_succ, Finset.filter_insert]
    by_cases hq : q n = true
    · rw [if_pos hq, Finset.card_insert_of_not_mem (by simp)]
      simp [List.countP_cons, hq, ih]
    · have hq' : q n = false := by simpa using hq
      rw [if_neg hq, ih]
      simp [List.countP_cons, hq']

theorem qcutScores_length (vals : List Int) : (qcutScores vals).length = vals.length := by
  simp [qcutScores, rankFirst]

theorem qcutBin_bounds (n r : Nat) : 1 ≤ qcutBin n r ∧ qcutBin n r ≤ 4 := by
  unfold qcutBin
  split_ifs <;> omega

/-- Each customer's quartile population: translating the count of a bin
label among the assigned scores into a count over the rank range 1..n. -/
theorem count_qcutScores (vals : List Int) (j : Nat) :
    (qcutScores vals).count j =
      ((Finset.Icc 1 vals.length).filter
        (fun r => qcutBin vals.length r = j)).card := by
  have h1 : (qcutScores vals).count j =
      (List.range vals.length).countP
        (fun i => qcutBin vals.length (rankAt vals i) == j) := by
    simp only [qcutScores, rankFirst, List.count, List.countP_map]
    rfl
  rw [h1, countP_range_eq_card]
  have h2 : (Finset.range vals.length).filter
        (fun i => (qcutBin vals.length (rankAt vals i) == j) = true) =
      (Finset.range vals.length).filter
        (fun i => qcutBin vals.length (rankAt vals i) = j) := by
    apply Finset.filter_congr
    intro x _
    simp
  rw [h2]
  have h3 : ((Finset.range vals.length).image (rankAt vals)).filter
        (fun r => qcutBin vals.length r = j) =
      ((Finset.range vals.length).filter
        (fun i => qcutBin vals.length (rankAt vals i) = j)).image (rankAt vals) :=
    Finset.filter_image
  have h4 : (((Finset.range vals.length).filter
        (fun i => qcutBin vals.length (rankAt vals i) = j)).image (rankAt vals)).card =
      ((Finset.range vals.length).filter
        (fun i => qcutBin vals.length (rankAt vals i) = j)).card := by
    apply Finset.card_image_of_injOn
    intro a ha b hb hab
    have ha' : a ∈ Finset.range vals.length :=
      (Finset.mem_filter.mp (Finset.mem_coe.mp ha)).1
    have hb' : b ∈ Finset.range vals.length :=
      (Finset.mem_filter.mp (Finset.mem_coe.mp hb)).1
    exact rankAt_inj vals (Finset.mem_range.mp ha') (Finset.mem_range.mp hb') hab
  rw [← h4, ← h3, rankAt_image]

/-- Closed form of the four bin populations of qcut over ranks 1..n. -/
theorem qcutBin_filter_card (n : Nat) (hn : 2 ≤ n) :
    (((Finset.Icc 1 n).filter (fun r => qcutBin n r = 1)).card = (n-1)*1/4 + 1) ∧
    (((Finset.Icc 1 n).filter (fun r => qcutBin n r = 2)).card =
      (n-1)*2/4 - (n-1)*1/4) ∧
    (((Finset.Icc 1 n).filter (fun r => qcutBin n r = 3)).card =
      (n-1)*3/4 - (n-1)*2/4) ∧
    (((Finset.Icc 1 n).filter (fun r => qcutBin n r = 4)).card =
      n - 1 - (n-1)*3/4) := by
  have e1 : (Finset.Icc 1 n).filter (fun r => qcutBin n r = 1) =
      Finset.Icc 1 ((n-1)*1/4 + 1) := by
    ext r
    simp only [Finset.mem_filter, Finset.mem_Icc, qcutBin]
    split_ifs <;> omega
  have e2 : (Finset.Icc 1 n).filter (fun r => qcutBin n r = 2) =
      Finset.Icc ((n-1)*1/4 + 2) ((n-1)*2/4 + 1) := by
    ext r
    simp only [Finset.mem_filter, Finset.mem_Icc, qcutBin]
    split_ifs <;> omega
  have e3 : (Finset.Icc 1 n).filter (fun r => qcutBin n r = 3) =
      Finset.Icc ((n-1)*2/4 + 2) ((n-1)*3/4 + 1) := by
    ext r
    simp only [Finset.mem_filter, Finset.mem_Icc, qcutBin]
    split_ifs <;> omega
  have e4 : (Finset.Icc 1 n).filter (fun r => qcutBin n r = 4) =
      Finset.Icc ((n-1)*3/4 + 2) n := by
    ext r
    simp only [Finset.mem_filter, Finset.mem_Icc, qcutBin]
    split_ifs <;> omega
  rw [e1, e2, e3, e4, Nat.card_Icc, Nat.card_Icc, Nat.card_Icc, Nat.card_Icc]
  refine ⟨by omega, by omega, by omega, by omega⟩

/-- The four bins of qcut over ranks 1..n cover all n ranks and their
populations pairwise differ by at most one. -/
theorem qcut_counts_balanced (n : Nat) (hn : 2 ≤ n) :
    (∀ j, 1 ≤ j → j ≤ 4 → ∀ k, 1 ≤ k → k ≤ 4 →
      ((Finset.Icc 1 n).filter (fun r => qcutBin n r = j)).card ≤
        ((Finset.Icc 1 n).filter (fun r => qcutBin n r = k)).card + 1) ∧
    ((Finset.Icc 1 n).filter (fun r => qcutBin n r = 1)).card +
      ((Finset.Icc 1 n).filter (fun r => qcutBin n r = 2)).card +
      ((Finset.Icc 1 n).filter (fun r => qcutBin n r = 3)).card +
      ((Finset.Icc 1 n).filter (fun r => qcutBin n r = 4)).card = n := by
  obtain ⟨h1, h2, h3, h4⟩ := qcutBin_filter_card n hn
  constructor
  · intro j hj1 hj4 k hk1 hk4
    interval_cases j <;> interval_cases k <;> simp only [h1, h2, h3, h4] <;> omega
  · rw [h1, h2, h3, h4]
    omega

theorem countP_fst_zip {β γ : Type} (q : β → Bool) :
    ∀ (a : List β) (b : List γ), a.length = b.length →
      (a.zip b).countP (fun p => q p.1) = a.countP q
  | [], _, _ => by simp
  | _ :: _, [], h => by simp at h
  | x :: xs, y :: ys, h => by
    simp only [List.zip_cons_cons, List.countP_cons]
    rw [countP_fst_zip q xs ys (by simpa using h)]

theorem countP_snd_zip {β γ : Type} (q : γ → Bool) :
    ∀ (a : List β) (b : List γ), a.length = b.length →
      (a.zip b).countP (fun p => q p.2) = b.countP q
  | [], [], _ => by simp
  | [], _ :: _, h => by simp at h
  | _ :: _, [], h => by simp at h
  | x :: xs, y :: ys, h => by
    simp only [List.zip_cons_cons, List.countP_cons]
    rw [countP_snd_zip q xs ys (by simpa using h)]

theorem mergeScores_cons_active_cons (row : RfmRow) (rest : List RfmRow)
    (p : Nat × Nat) (ps : List (Nat × Nat))
    (h : 3 ≤ get_r_score row.recency_days) :
    mergeScores (row :: rest) (p :: ps) =
      toScored row p.1 p.2 :: mergeScores rest ps := by
  rw [mergeScores_cons, if_pos h]

theorem mergeScores_cons_inactive (row : RfmRow) (rest : List RfmRow)
    (scores : List (Nat × Nat)) (h : ¬ 3 ≤ get_r_score row.recency_days) :
    mergeScores (row :: rest) scores =
      toScored row 1 1 :: mergeScores rest scores := by
  rw [mergeScores_cons, if_neg h]

theorem activeRows_cons_pos {row : RfmRow} (rest : List RfmRow)
    (h : 3 ≤ get_r_score row.recency_days) :
    activeRows (row :: rest) = row :: activeRows rest := by
  unfold activeRows
  rw [List.filter_cons_of_pos (by simpa using h)]

theorem activeRows_cons_neg {row : RfmRow} (rest : List RfmRow)
    (h : ¬ 3 ≤ get_r_score row.recency_days) :
    activeRows (row :: rest) = activeRows rest := by
  unfold activeRows
  rw [List.filter_cons_of_neg (by simpa using h)]

/-- The rows of the active subpopulation receive exactly the provided score
pairs, in order (the positional semantics of the `.loc` assignment). -/
theorem mergeScores_active_pairs :
    ∀ (l : List RfmRow) (fm : List (Nat × Nat)),
      fm.length = (activeRows l).length →
      ((mergeScores l fm).filter (fun s => decide (3 ≤ s.r_score))).map
        (fun s => (s.f_score, s.m_score)) = fm := by
  intro l
  induction l with
  | nil =>
    intro fm hlen
    rw [show activeRows [] = [] from rfl] at hlen
    rw [mergeScores_nil]
    simpa using (List.length_eq_zero.mp hlen).symm
  | cons row rest ih =>
    intro fm hlen
    by_cases hact : 3 ≤ get_r_score row.recency_days
    · rw [activeRows_cons_pos rest hact] at hlen
      cases fm with
      | nil => simp at hlen
      | cons p ps =>
        rw [mergeScores_cons_active_cons row rest p ps hact]
        have hstep : List.filter (fun s : ScoredRow => decide (3 ≤ s.r_score))
            (toScored row p.1 p.2 :: mergeScores rest ps) =
              toScored row p.1 p.2 ::
                List.filter (fun s : ScoredRow => decide (3 ≤ s.r_score))
                  (mergeScores rest ps) := by
          simp [List.filter_cons, toScored, hact]
        rw [hstep, List.map_cons, ih ps (by simpa using hlen)]
        rfl
    · rw [activeRows_cons_neg rest hact] at hlen
      rw [mergeScores_cons_inactive row rest fm hact]
      have hstep : List.filter (fun s : ScoredRow => decide (3 ≤ s.r_score))
          (toScored row 1 1 :: mergeScores rest fm) =
            List.filter (fun s : ScoredRow => decide (3 ≤ s.r_score))
              (mergeScores rest fm) := by
        simp [List.filter_cons, toScored, hact]
      rw [hstep, ih fm hlen]

theorem mergeScores_scores_prop (P : Nat × Nat → Prop) (l : List RfmRow)
    (scores : List (Nat × Nat)) (hP1 : P (1, 1)) (hsc : ∀ p ∈ scores, P p) :
    ∀ s ∈ mergeScores l scores, P (s.f_score, s.m_score) := by
  induction l generalizing scores with
  | nil =>
    intro s hs
    simp [mergeScores] at hs
  | cons row rest ih =>
    intro s hs
    rw [mergeScores_cons] at hs
    by_cases hact : 3 ≤ get_r_score row.recency_days
    · rw [if_pos hact] at hs
      cases scores with
      | nil =>
        rcases List.mem_cons.mp hs with rfl | hs
        · exact hP1
        · exact ih [] (by simp) s hs
      | cons p ps =>
        rcases List.mem_cons.mp hs with rfl | hs
        · have := hsc p (List.mem_cons_self p ps)
          simpa [toScored] using this
        · exact ih ps (fun q hq => hsc q (List.mem_cons_of_mem p hq)) s hs
    · rw [if_neg hact] at hs
      rcases List.mem_cons.mp hs with rfl | hs
      · exact hP1
      · exact ih scores hsc s hs

/-- The active rows of the final scored output. -/
def activeScored (rfm : List RfmRow) : List ScoredRow :=
  (assign_strategic_scores rfm).1.filter (fun s => decide (3 ≤ s.r_score))

theorem countP_zip_fst_beq (j : Nat) (a b : List Nat) (h : a.length = b.length) :
    (a.zip b).countP (fun p => p.1 == j) = a.countP (fun x => x == j) :=
  countP_fst_zip (fun x => x == j) a b h

theorem countP_zip_snd_beq (j : Nat) (a b : List Nat) (h : a.length = b.length) :
    (a.zip b).countP (fun p => p.2 == j) = b.countP (fun x => x == j) :=
  countP_snd_zip (fun x => x == j) a b h

theorem countP_activeScored_f (rfm : List RfmRow)
    (h2 : 2 ≤ (activeRows rfm).length) (j : Nat) :
    (activeScored rfm).countP (fun s => s.f_score == j) =
      ((Finset.Icc 1 (activeRows rfm).length).filter
        (fun r => qcutBin (activeRows rfm).length r = j)).card := by
  have hfl : ((activeRows rfm).map (fun r => (r.frequency : Int))).length =
      (activeRows rfm).length := List.length_map _ _
  have hml : ((activeRows rfm).map (fun r : RfmRow => r.monetary)).length =
      (activeRows rfm).length := List.length_map _ _
  have hassign : (assign_strategic_scores rfm).1 =
      mergeScores rfm
        ((qcutScores ((activeRows rfm).map (fun r => (r.frequency : Int)))).zip
          (qcutScores ((activeRows rfm).map (fun r => r.monetary)))) := by
    unfold assign_strategic_scores
    rw [if_pos h2]
  have hzlen : ((qcutScores ((activeRows rfm).map (fun r => (r.frequency : Int)))).zip
        (qcutScores ((activeRows rfm).map (fun r => r.monetary)))).length =
      (activeRows rfm).length := by
    rw [List.length_zip, qcutScores_length, qcutScores_length, hfl, hml, Nat.min_self]
  have hpairs := mergeScores_active_pairs rfm _ hzlen
  unfold activeScored
  rw [hassign]
  have hx : ((List.filter (fun s => decide (3 ≤ s.r_score))
        (mergeScores rfm
          ((qcutScores ((activeRows rfm).map (fun r => (r.frequency : Int)))).zip
            (qcutScores ((activeRows rfm).map (fun r => r.monetary)))))).map
          (fun s => (s.f_score, s.m_score))).countP (fun p => p.1 == j) =
      (List.filter (fun s => decide (3 ≤ s.r_score))
        (mergeScores rfm
          ((qcutScores ((activeRows rfm).map (fun r => (r.frequency : Int)))).zip
            (qcutScores ((activeRows rfm).map (fun r => r.monetary)))))).countP
        (fun s => s.f_score == j) := List.countP_map _ _ _
  rw [← hx, hpairs,
    countP_zip_fst_beq j _ _ (by rw [qcutScores_length, qcutScores_length, hfl, hml])]
  have hc := count_qcutScores ((activeRows rfm).map (fun r => (r.frequency : Int))) j
  rw [hfl] at hc
  exact hc

theorem countP_activeScored_m (rfm : List RfmRow)
    (h2 : 2 ≤ (activeRows rfm).length) (j : Nat) :
    (activeScored rfm).countP (fun s => s.m_score == j) =
      ((Finset.Icc 1 (activeRows rfm).length).filter
        (fun r => qcutBin (activeRows rfm).length r = j)).card := by
  have hfl : ((activeRows rfm).map (fun r => (r.frequency : Int))).length =
      (activeRows rfm).length := List.length_map _ _
  have hml : ((activeRows rfm).map (fun r : RfmRow => r.monetary)).length =
      (activeRows rfm).length := List.length_map _ _
  have hassign : (assign_strategic_scores rfm).1 =
      mergeScores rfm
        ((qcutScores ((activeRows rfm).map (fun r => (r.frequency : Int)))).zip
          (qcutScores ((activeRows rfm).map (fun r => r.monetary)))) := by
    unfold assign_strategic_scores
    rw [if_pos h2]
  have hzlen : ((qcutScores ((activeRows rfm).map (fun r => (r.frequency : Int)))).zip
        (qcutScores ((activeRows rfm).map (fun r => r.monetary)))).length =
      (activeRows rfm).length := by
    rw [List.length_zip, qcutScores_length, qcutScores_length, hfl, hml, Nat.min_self]
  have hpairs := mergeScores_active_pairs rfm _ hzlen
  unfold activeScored
  rw [hassign]
  have hx : ((List.filter (fun s => decide (3 ≤ s.r_score))
        (mergeScores rfm
          ((qcutScores ((activeRows rfm).map (fun r => (r.frequency : Int)))).zip
            (qcutScores ((activeRows rfm).map (fun r => r.monetary)))))).map
          (fun s => (s.f_score, s.m_score))).countP (fun p => p.2 == j) =
      (List.filter (fun s => decide (3 ≤ s.r_score))
        (mergeScores rfm
          ((qcutScores ((activeRows rfm).map (fun r => (r.frequency : Int)))).zip
            (qcutScores ((activeRows rfm).map (fun r => r.monetary)))))).countP
        (fun s => s.m_score == j) := List.countP_map _ _ _
  rw [← hx, hpairs,
    countP_zip_snd_beq j _ _ (by rw [qcutScores_length, qcutScores_length, hfl, hml])]
  have hc := count_qcutScores ((activeRows rfm).map (fun r : RfmRow => r.monetary)) j
  rw [hml] at hc
  exact hc

/-- A sample rfm table with two active customers (recency 0 and 3 days). -/
def exRfmActive : List RfmRow := [⟨1, 0, 5, 50⟩, ⟨2, 3, 2, 10⟩]

/-- C6: when the quantile binning succeeds (at least two active customers),
frequency and monetary are ordinal-ranked — ties broken by position, so the
rank lists are duplicate-free — and the ranks are cut into 4 bins: every
scored row's f/m score is one of the four bins, and over the active rows of
the output the four f-bin populations (and m-bin populations) sum to the
active-customer count and pairwise differ by at most one. -/
theorem c6_ordinal_rank_quartiles (rfm : List RfmRow)
    (h2 : 2 ≤ (activeRows rfm).length) :
    (rankFirst ((activeRows rfm).map (fun r => (r.frequency : Int)))).Nodup ∧
    (rankFirst ((activeRows rfm).map (fun r : RfmRow => r.monetary))).Nodup ∧
    (∀ s ∈ (assign_strategic_scores rfm).1,
        1 ≤ s.f_score ∧ s.f_score ≤ 4 ∧ 1 ≤ s.m_score ∧ s.m_score ≤ 4) ∧
    (∀ j, 1 ≤ j → j ≤ 4 → ∀ k, 1 ≤ k → k ≤ 4 →
        (activeScored rfm).countP (fun s => s.f_score == j) ≤
          (activeScored rfm).countP (fun s => s.f_score == k) + 1 ∧
        (activeScored rfm).countP (fun s => s.m_score == j) ≤
          (activeScored rfm).countP (fun s => s.m_score == k) + 1) ∧
    (activeScored rfm).countP (fun s => s.f_score == 1) +
        (activeScored rfm).countP (fun s => s.f_score == 2) +
        (activeScored rfm).countP (fun s => s.f_score == 3) +
        (activeScored rfm).countP (fun s => s.f_score == 4) =
      (activeRows rfm).length ∧
    (activeScored rfm).countP (fun s => s.m_score == 1) +
        (activeScored rfm).countP (fun s => s.m_score == 2) +
        (activeScored rfm).countP (fun s => s.m_score == 3) +
        (activeScored rfm).countP (fun s => s.m_score == 4) =
      (activeRows rfm).length := by
  obtain ⟨hbal, hsum⟩ := qcut_counts_balanced (activeRows rfm).length h2
  refine ⟨rankFirst_nodup _, rankFirst_nodup _, ?_, ?_, ?_, ?_⟩
  · intro s hs
    have hassign : (assign_strategic_scores rfm).1 =
        mergeScores rfm
          ((qcutScores ((activeRows rfm).map (fun r => (r.frequency : Int)))).zip
            (qcutScores ((activeRows rfm).map (fun r => r.monetary)))) := by
      unfold assign_strategic_scores
      rw [if_pos h2]
    rw [hassign] at hs
    refine mergeScores_scores_prop
      (fun p => 1 ≤ p.1 ∧ p.1 ≤ 4 ∧ 1 ≤ p.2 ∧ p.2 ≤ 4) rfm _ (by omega) ?_ s hs
    intro p hp
    rcases List.of_mem_zip hp with ⟨hp1, hp2⟩
    rcases List.mem_map.mp hp1 with ⟨r1, _, e1⟩
    rcases List.mem_map.mp hp2 with ⟨r2, _, e2⟩
    rw [← e1, ← e2]
    exact ⟨(qcutBin_bounds _ _).1, (qcutBin_bounds _ _).2,
      (qcutBin_bounds _ _).1, (qcutBin_bounds _ _).2⟩
  · intro j hj1 hj4 k hk1 hk4
    constructor
    · rw [countP_activeScored_f rfm h2 j, countP_activeScored_f rfm h2 k]
      exact hbal j hj1 hj4 k hk1 hk4
    · rw [countP_activeScored_m rfm h2 j, countP_activeScored_m rfm h2 k]
      exact hbal j hj1 hj4 k hk1 hk4
  · rw [countP_activeScored_f rfm h2 1, countP_activeScored_f rfm h2 2,
      countP_activeScored_f rfm h2 3, countP_activeScored_f rfm h2 4]
    exact hsum
  · rw [countP_activeScored_m rfm h2 1, countP_activeScored_m rfm h2 2,
      countP_activeScored_m rfm h2 3, countP_activeScored_m rfm h2 4]
    exact hsum

/-- Witness for C6 at a concrete pipeline run with two active customers. -/
theorem c6_ordinal_rank_quartiles_witness :
    (rankFirst ((activeRows exRfmActive).map (fun r => (r.frequency : Int)))).Nodup :=
  (c6_ordinal_rank_quartiles exRfmActive (by decide)).1

/-! ### Duals of the list-maximum lemmas, for the minimum -/

section ListMinLemmas

variable {α : Type} [LinearOrder α]

theorem foldl_min_le_self (xs : List α) (x : α) : xs.foldl min x ≤ x := by
  induction xs generalizing x with
  | nil => simp
  | cons z zs ih => exact le_trans (ih (min x z)) (min_le_left x z)

theorem foldl_min_le_of_mem {xs : List α} {y : α} (hy : y ∈ xs) (x : α) :
    xs.foldl min x ≤ y := by
  induction xs generalizing x with
  | nil => cases hy
  | cons z zs ih =>
    rcases List.mem_cons.mp hy with rfl | hy
    · exact le_trans (foldl_min_le_self zs (min x y)) (min_le_right x y)
    · exact ih hy (min x z)

theorem foldl_min_mem (xs : List α) (x : α) :
    xs.foldl min x = x ∨ xs.foldl min x ∈ xs := by
  induction xs generalizing x with
  | nil => simp
  | cons z zs ih =>
    simp only [List.foldl_cons]
    rcases ih (min x z) with h | h
    · rcases min_choice x z with hm | hm
      · rw [hm] at h ⊢
        exact Or.inl h
      · rw [hm] at h ⊢
        rw [h]
        exact Or.inr (List.mem_cons_self z zs)
    · exact Or.inr (List.mem_cons_of_mem z h)

theorem listMin?_mem {l : List α} {a : α} (h : listMin? l = some a) : a ∈ l := by
  cases l with
  | nil => simp [listMin?] at h
  | cons x xs =>
    simp only [listMin?, Option.some.injEq] at h
    rcases foldl_min_mem xs x with h' | h'
    · rw [← h, h']
      exact List.mem_cons_self x xs
    · rw [← h]
      exact List.mem_cons_of_mem x h'

theorem listMin?_le {l : List α} {x a : α} (hx : x ∈ l) (h : listMin? l = some a) :
    a ≤ x := by
  cases l with
  | nil => cases hx
  | cons z zs =>
    simp only [listMin?, Option.some.injEq] at h
    rcases List.mem_cons.mp hx with rfl | hx
    · rw [← h]
      exact foldl_min_le_self zs x
    · rw [← h]
      exact foldl_min_le_of_mem hx z

theorem listMin?_isSome {l : List α} (h : l ≠ []) : ∃ a, listMin? l = some a := by
  cases l with
  | nil => exact absurd rfl h
  | cons x xs => exact ⟨xs.foldl min x, rfl⟩

theorem listMax?_isSome {l : List α} (h : l ≠ []) : ∃ a, listMax? l = some a := by
  cases l with
  | nil => exact absurd rfl h
  | cons x xs => exact ⟨xs.foldl max x, rfl⟩

end ListMinLemmas

/-! ### The customer-month spine (claim C4) -/

theorem uniqueFirst_cons (x : Nat) (xs : List Nat) :
    uniqueFirst (x :: xs) = x :: uniqueFirst (xs.filter (fun y => y != x)) := by
  unfold uniqueFirst
  rw [show (x :: xs).length = xs.length + 1 from rfl, uniqueFirstAux_succ]
  rw [uniqueFirstAux_fuel xs.length (xs.filter (fun y => y != x)).length _
    (List.length_filter_le _ _) (le_refl _)]

theorem mem_uniqueFirst : ∀ (n : Nat) (l : List Nat), l.length ≤ n →
    ∀ x, (x ∈ uniqueFirst l ↔ x ∈ l)
  | _, [], _, x => by simp [uniqueFirst, uniqueFirstAux_nil]
  | 0, y :: ys, h, x => by simp at h
  | Nat.succ n, y :: ys, h, x => by
    rw [uniqueFirst_cons]
    have hlen : (ys.filter (fun z => z != y)).length ≤ n :=
      le_trans (List.length_filter_le _ _) (by simpa using h)
    have ih := mem_uniqueFirst n (ys.filter (fun z => z != y)) hlen x
    by_cases hxy : x = y
    · simp [hxy]
    · simp only [List.mem_cons, ih, List.mem_filter]
      simp [hxy]

theorem mem_uniqueFirst_iff (l : List Nat) (x : Nat) :
    x ∈ uniqueFirst l ↔ x ∈ l :=
  mem_uniqueFirst l.length l (le_refl _) x

theorem nodup_uniqueFirst : ∀ (n : Nat) (l : List Nat), l.length ≤ n →
    (uniqueFirst l).Nodup
  | _, [], _ => by simp [uniqueFirst, uniqueFirstAux_nil]
  | 0, y :: ys, h => by simp at h
  | Nat.succ n, y :: ys, h => by
    rw [uniqueFirst_cons]
    have hlen : (ys.filter (fun z => z != y)).length ≤ n :=
      le_trans (List.length_filter_le _ _) (by simpa using h)
    refine List.nodup_cons.mpr ⟨?_, nodup_uniqueFirst n _ hlen⟩
    intro hy
    have := (mem_uniqueFirst n _ hlen y).mp hy
    rcases List.mem_filter.mp this with ⟨_, hne⟩
    simp at hne

theorem uniqueFirst_nodup (l : List Nat) : (uniqueFirst l).Nodup :=
  nodup_uniqueFirst l.length l (le_refl _)

theorem length_flatMap_const {β : Type} (keys : List Nat) (f : Nat → List β) (c : Nat)
    (hf : ∀ k, (f k).length = c) : (keys.flatMap f).length = keys.length * c := by
  induction keys with
  | nil => simp
  | cons k ks ih =>
    rw [List.flatMap_cons, List.length_append, hf, ih, List.length_cons]
    ring

theorem nodup_flatMap_pairs (keys months : List Nat)
    (hk : keys.Nodup) (hm : months.Nodup) :
    (keys.flatMap (fun k => months.map (fun m => (k, m)))).Nodup := by
  induction keys with
  | nil => simp
  | cons k ks ih =>
    rw [List.flatMap_cons]
    rcases List.nodup_cons.mp hk with ⟨hk1, hk2⟩
    refine List.Nodup.append (hm.map ?_) (ih hk2) ?_
    · intro a b hab
      injection hab
    · intro p hp1 hp2
      rcases List.mem_map.mp hp1 with ⟨m, _, rfl⟩
      rcases List.mem_flatMap.mp hp2 with ⟨k2, hk2mem, hpk2⟩
      rcases List.mem_map.mp hpk2 with ⟨m2, _, he⟩
      have : k2 = k := (Prod.mk.injEq _ _ _ _ |>.mp he).1
      exact hk1 (this ▸ hk2mem)

theorem mem_flatMap_pairs (keys months : List Nat) (k m : Nat) :
    (k, m) ∈ keys.flatMap (fun a => months.map (fun b => (a, b))) ↔
      k ∈ keys ∧ m ∈ months := by
  rw [List.mem_flatMap]
  constructor
  · rintro ⟨a, ha, hmem⟩
    rcases List.mem_map.mp hmem with ⟨b, hb, he⟩
    rcases Prod.mk.injEq _ _ _ _ |>.mp he with ⟨rfl, rfl⟩
    exact ⟨ha, hb⟩
  · rintro ⟨hk, hm⟩
    exact ⟨k, hk, List.mem_map.mpr ⟨m, hm, rfl⟩⟩

theorem minMonth_le_maxMonth {txns : List Txn} (h : txns ≠ []) :
    minMonth txns ≤ maxMonth txns := by
  have hne : txns.map (fun t : Txn => t.date) ≠ [] := by
    simpa using h
  rcases listMin?_isSome hne with ⟨dmin, hmin⟩
  rcases listMax?_isSome hne with ⟨dmax, hmax⟩
  have hmem : dmin ∈ txns.map (fun t : Txn => t.date) := listMin?_mem hmin
  have hle : dmin ≤ dmax := le_listMax? hmem hmax
  unfold minMonth maxMonth
  rw [hmin, hmax]
  exact Date.m_le_of_le hle

/-- The transactions used in concrete witnesses: two households, three
months spanned. -/
def exTxns : List Txn :=
  [⟨1, 10, 100, ⟨0, 5⟩⟩, ⟨1, 11, 50, ⟨2, 20⟩⟩, ⟨2, 12, 7, ⟨1, 3⟩⟩]

/-- C4: the spine is exactly the cross product of the distinct observed
household keys with the inclusive month range of the dataset: its length is
the product of the two counts, it has no duplicate (customer, month) pairs,
and it contains a pair iff the customer occurs in the data and the month
lies between the months of the minimum and maximum transaction dates. -/
theorem c4_spine_cross_product (txns : List Txn) (h : txns ≠ []) :
    (create_customer_month_spine txns).length =
      (uniqueFirst (txns.map (fun t => t.household_key))).length *
        (maxMonth txns + 1 - minMonth txns) ∧
    (create_customer_month_spine txns).Nodup ∧
    ∀ k m, ((k, m) ∈ create_customer_month_spine txns ↔
      (k ∈ txns.map (fun t => t.household_key) ∧
        minMonth txns ≤ m ∧ m ≤ maxMonth txns)) := by
  have hmm := minMonth_le_maxMonth h
  unfold create_customer_month_spine monthRange
  refine ⟨?_, ?_, ?_⟩
  · exact length_flatMap_const _ _ _
      (fun k => by rw [List.length_map, List.length_range'])
  · exact nodup_flatMap_pairs _ _ (uniqueFirst_nodup _) (List.nodup_range' _ _)
  · intro k m
    rw [mem_flatMap_pairs, mem_uniqueFirst_iff, List.mem_range'_1]
    constructor
    · rintro ⟨hk, hm1, hm2⟩
      exact ⟨hk, hm1, by omega⟩
    · rintro ⟨hk, hm1, hm2⟩
      exact ⟨hk, hm1, by omega⟩

/-- Witness for C4 at a concrete transaction list. -/
theorem c4_spine_cross_product_witness :
    (create_customer_month_spine exTxns).length =
      (uniqueFirst (exTxns.map (fun t => t.household_key))).length *
        (maxMonth exTxns + 1 - minMonth exTxns) :=
  (c4_spine_cross_product exTxns (by decide)).1

/-! ### Plumbing: the snapshot pipeline decomposed per household -/

theorem filter_map_comm {β γ : Type} (f : β → γ) (p : γ → Bool) (l : List β) :
    (l.map f).filter p = (l.filter (fun a => p (f a))).map f := by
  induction l with
  | nil => rfl
  | cons x xs ih =>
    simp only [List.map_cons, List.filter_cons]
    by_cases h : p (f x) = true
    · simp [h, ih]
    · simp [h, ih]

theorem insertSorted_perm (x : Nat) (l : List Nat) :
    (insertSorted x l).Perm (x :: l) := by
  induction l with
  | nil => exact List.Perm.refl _
  | cons y ys ih =>
    rw [insertSorted]
    by_cases h : x ≤ y
    · rw [if_pos h]
    · rw [if_neg h]
      exact (ih.cons y).trans (List.Perm.swap x y ys)

theorem sortNat_perm (l : List Nat) : (sortNat l).Perm l := by
  induction l with
  | nil => exact List.Perm.refl _
  | cons x xs ih =>
    rw [show sortNat (x :: xs) = insertSorted x (sortNat xs) from rfl]
    exact (insertSorted_perm x (sortNat xs)).trans (ih.cons x)

theorem mem_sortNat (l : List Nat) (x : Nat) : x ∈ sortNat l ↔ x ∈ l :=
  (sortNat_perm l).mem_iff

theorem uniqueFirst_eq_nil {l : List Nat} (h : uniqueFirst l = []) : l = [] := by
  cases l with
  | nil => rfl
  | cons x xs =>
    rw [uniqueFirst_cons] at h
    cases h

theorem flatMap_congr_mem {β : Type} (l : List Nat) (f g : Nat → List β)
    (h : ∀ a ∈ l, f a = g a) : l.flatMap f = l.flatMap g := by
  induction l with
  | nil => rfl
  | cons x xs ih =>
    rw [List.flatMap_cons, List.flatMap_cons, h x (List.mem_cons_self x xs),
      ih (fun a ha => h a (List.mem_cons_of_mem x ha))]

theorem metricFor_key (txns : List Txn) (p : Nat × Nat) :
    (metricFor txns p).household_key = p.1 := rfl

theorem filter_key_block (txns : List Txn) (k k0 : Nat) (months : List Nat) :
    (months.map (fun m => metricFor txns (k, m))).filter
        (fun r => r.household_key == k0) =
      if k = k0 then months.map (fun m => metricFor txns (k, m)) else [] := by
  induction months with
  | nil => simp
  | cons m ms ih =>
    rw [List.map_cons, List.filter_cons]
    by_cases h : k = k0
    · subst h
      simp only [metricFor_key, beq_self_eq_true, if_true, ih, if_pos rfl,
        List.map_cons]
    · have hb : ((metricFor txns (k, m)).household_key == k0) = false := by
        simp [metricFor_key, h]
      rw [hb]
      simp only [Bool.false_eq_true, if_false]
      rw [ih, if_neg h, if_neg h]

theorem filter_metrics_flatMap (txns : List Txn) (keys months : List Nat)
    (k0 : Nat) (hnd : keys.Nodup) :
    ((keys.flatMap (fun k => months.map (fun m => (k, m)))).map
        (metricFor txns)).filter (fun r => r.household_key == k0) =
      if k0 ∈ keys then months.map (fun m => metricFor txns (k0, m)) else [] := by
  induction keys with
  | nil => simp
  | cons k ks ih =>
    rcases List.nodup_cons.mp hnd with ⟨hk1, hk2⟩
    rw [List.flatMap_cons, List.map_append, List.filter_append, List.map_map,
      show (metricFor txns ∘ fun m => (k, m)) = (fun m => metricFor txns (k, m))
        from rfl,
      filter_key_block, ih hk2]
    by_cases h : k = k0
    · subst h
      rw [if_pos rfl, if_neg (fun hc => hk1 hc), if_pos (List.mem_cons_self k ks),
        List.append_nil]
    · rw [if_neg h]
      by_cases h0 : k0 ∈ ks
      · rw [if_pos h0, if_pos (List.mem_cons_of_mem k h0), List.nil_append]
      · rw [if_neg h0, if_neg (by simpa [eq_comm] using not_or.mpr ⟨fun hc => h hc.symm, h0⟩),
          List.nil_append]

theorem filter_const_map_eq_nil (k : Nat) (months : List Nat) :
    (months.map (fun _ => k)).filter (fun y => y != k) = [] := by
  induction months with
  | nil => rfl
  | cons m ms ih => simp [List.filter_cons, ih]

theorem uniqueFirst_flatMap_replicate (keys months : List Nat)
    (hnd : keys.Nodup) (hm : months ≠ []) :
    uniqueFirst (keys.flatMap (fun k => months.map (fun _ => k))) = keys := by
  induction keys with
  | nil => simp [uniqueFirst, uniqueFirstAux_nil]
  | cons k ks ih =>
    rcases List.nodup_cons.mp hnd with ⟨hk1, hk2⟩
    cases months with
    | nil => exact absurd rfl hm
    | cons m0 ms =>
      rw [List.flatMap_cons, List.map_cons, List.cons_append, uniqueFirst_cons,
        List.filter_append, filter_const_map_eq_nil, List.nil_append]
      have hrest : (ks.flatMap (fun a => (m0 :: ms).map (fun _ => a))).filter
          (fun y => y != k) = ks.flatMap (fun a => (m0 :: ms).map (fun _ => a)) := by
        rw [List.filter_eq_self]
        intro a ha
        rcases List.mem_flatMap.mp ha with ⟨k2, hk2m, hmem⟩
        rcases List.mem_map.mp hmem with ⟨_, _, rfl⟩
        simp only [bne_iff_ne, ne_eq]
        rintro rfl
        exact hk1 hk2m
      rw [hrest, ih hk2]

/-- All transaction dates of a given household, in data order. -/
def custDates (txns : List Txn) (k : Nat) : List Date :=
  (txns.filter (fun t => t.household_key == k)).map (fun t => t.date)

theorem metricFor_last (txns : List Txn) (k m : Nat) :
    (metricFor txns (k, m)).last_purchase_this_month =
      listMax? ((custDates txns k).filter (fun d => d.m == m)) := by
  have h1 : (custDates txns k).filter (fun d => d.m == m) =
      ((txns.filter (fun t => t.household_key == k)).filter
        (fun t => t.date.m == m)).map (fun t => t.date) :=
    filter_map_comm _ _ _
  have h2 : (txns.filter (fun t => t.household_key == k)).filter
        (fun t => t.date.m == m) = txnsIn txns k m := by
    rw [List.filter_filter]
    exact List.filter_congr (fun t _ => by rw [Bool.and_comm])
  rw [h1, h2]
  rfl

theorem decide_le_split (a b : Nat) :
    decide (a ≤ b) = (decide (a < b) || (a == b)) := by
  by_cases h : a < b
  · simp [h, Nat.le_of_lt h]
  · by_cases h2 : a = b
    · simp [h2]
    · have h3 : ¬ a ≤ b := by omega
      simp [h, h2, h3]

theorem ffillLast_cons (acc : Option Date) (r : SnapshotRow)
    (rest : List SnapshotRow) :
    ffillLast acc (r :: rest) =
      match r.last_purchase_this_month with
      | some dt => (r, some dt) :: ffillLast (some dt) rest
      | none => (r, acc) :: ffillLast acc rest := rfl

theorem ffillLast_cons_some {r : SnapshotRow} {dt : Date} (acc : Option Date)
    (rest : List SnapshotRow) (h : r.last_purchase_this_month = some dt) :
    ffillLast acc (r :: rest) = (r, some dt) :: ffillLast (some dt) rest := by
  rw [ffillLast_cons, h]

theorem ffillLast_cons_none {r : SnapshotRow} (acc : Option Date)
    (rest : List SnapshotRow) (h : r.last_purchase_this_month = none) :
    ffillLast acc (r :: rest) = (r, acc) :: ffillLast acc rest := by
  rw [ffillLast_cons, h]

/-- The forward fill computes, at every month of the series, the maximum
transaction date of the household over all months up to and including that
month (none while there is none yet). -/
theorem ffill_char (txns : List Txn) (k : Nat) :
    ∀ (cnt m0 : Nat) (acc : Option Date),
      acc = listMax? ((custDates txns k).filter (fun d => decide (d.m < m0))) →
      ∀ pr ∈ ffillLast acc
          ((List.range' m0 cnt).map (fun m => metricFor txns (k, m))),
        ∃ m, m0 ≤ m ∧ m < m0 + cnt ∧ pr.1 = metricFor txns (k, m) ∧
          pr.2 = listMax? ((custDates txns k).filter (fun d => decide (d.m ≤ m))) := by
  intro cnt
  induction cnt with
  | zero =>
    intro m0 acc hacc pr hpr
    simp [ffillLast] at hpr
  | succ cnt ih =>
    intro m0 acc hacc pr hpr
    rw [List.range'_succ, List.map_cons] at hpr
    have hsplit : listMax? ((custDates txns k).filter (fun d => decide (d.m ≤ m0))) =
        optionMax
          (listMax? ((custDates txns k).filter (fun d => decide (d.m < m0))))
          (listMax? ((custDates txns k).filter (fun d => d.m == m0))) :=
      listMax?_filter_or _ _ _ _ (fun d _ => decide_le_split d.m m0)
    have hnext : ∀ m1 : Nat,
        (custDates txns k).filter (fun d => decide (d.m ≤ m1)) =
          (custDates txns k).filter (fun d => decide (d.m < m1 + 1)) :=
      fun m1 => List.filter_congr (fun d _ => by simp [Nat.lt_succ_iff])
    cases hthis : (metricFor txns (k, m0)).last_purchase_this_month with
    | none =>
      rw [ffillLast_cons_none acc _ hthis] at hpr
      have hempty : (custDates txns k).filter (fun d => d.m == m0) = [] := by
        have hl := metricFor_last txns k m0
        rw [hthis] at hl
        exact listMax?_eq_none_iff.mp hl.symm
      have hacc' : acc =
          listMax? ((custDates txns k).filter (fun d => decide (d.m ≤ m0))) := by
        rw [hsplit, hempty, show listMax? ([] : List Date) = none from rfl,
          optionMax_none_right]
        exact hacc
      rcases List.mem_cons.mp hpr with rfl | htail
      · exact ⟨m0, le_refl _, by omega, rfl, hacc'⟩
      · have hacc2 : acc =
            listMax? ((custDates txns k).filter (fun d => decide (d.m < m0 + 1))) := by
          rw [← hnext m0]
          exact hacc'
        rcases ih (m0 + 1) acc hacc2 pr htail with ⟨m, hm1, hm2, he1, he2⟩
        exact ⟨m, by omega, by omega, he1, he2⟩
    | some dmax =>
      rw [ffillLast_cons_some acc _ hthis] at hpr
      have hsome : listMax? ((custDates txns k).filter (fun d => d.m == m0)) =
          some dmax := (metricFor_last txns k m0).symm.trans hthis
      have hdm : dmax.m = m0 := by
        have hmem := listMax?_mem hsome
        simpa using (List.mem_filter.mp hmem).2
      have hacc' : some dmax =
          listMax? ((custDates txns k).filter (fun d => decide (d.m ≤ m0))) := by
        rw [hsplit, hsome]
        cases hcl : listMax? ((custDates txns k).filter
            (fun d => decide (d.m < m0))) with
        | none => rfl
        | some a =>
          have ham := listMax?_mem hcl
          have ha : a.m < m0 := by
            have := (List.mem_filter.mp ham).2
            simpa using this
          have hle : a ≤ dmax := Date.le_of_m_lt (by omega)
          show some dmax = some (max a dmax)
          rw [max_eq_right hle]
      rcases List.mem_cons.mp hpr with rfl | htail
      · exact ⟨m0, le_refl _, by omega, rfl, hacc'⟩
      · have hacc2 : some dmax =
            listMax? ((custDates txns k).filter (fun d => decide (d.m < m0 + 1))) := by
          rw [← hnext m0]
          exact hacc'
        rcases ih (m0 + 1) (some dmax) hacc2 pr htail with ⟨m, hm1, hm2, he1, he2⟩
        exact ⟨m, by omega, by omega, he1, he2⟩

/-- Shape of every row of the snapshot table: it belongs to some observed
household and some month of the spine range, its metric fields are the
monthly aggregate of that cell, and its forward-filled purchase date is the
household's latest transaction date up to and including its month. -/
theorem snapshots_row_char (txns : List Txn) (row : EnrichedRow)
    (hrow : row ∈ snapshots txns) :
    ∃ k m, k ∈ txns.map (fun t : Txn => t.household_key) ∧
      minMonth txns ≤ m ∧ m ≤ maxMonth txns ∧
      ∃ roll, row = enrichOne (metricFor txns (k, m))
        (listMax? ((custDates txns k).filter (fun d => decide (d.m ≤ m)))) roll := by
  have hne : txns ≠ [] := by
    rintro rfl
    rw [show snapshots [] = [] from rfl] at hrow
    cases hrow
  have hmm := minMonth_le_maxMonth hne
  have hkeysnd := uniqueFirst_nodup (txns.map (fun t : Txn => t.household_key))
  have hmonthsne : monthRange txns ≠ [] := by
    apply List.ne_nil_of_length_pos
    rw [monthRange, List.length_range']
    omega
  have hmapkey : (((create_customer_month_spine txns).map (metricFor txns)).map
      (fun r => r.household_key)) =
      (uniqueFirst (txns.map (fun t : Txn => t.household_key))).flatMap
        (fun k => (monthRange txns).map (fun _ => k)) := by
    rw [List.map_map, create_customer_month_spine, List.map_flatMap]
    refine flatMap_congr_mem _ _ _ (fun k _ => ?_)
    rw [List.map_map]
    rfl
  have huniq : uniqueFirst (((create_customer_month_spine txns).map
      (metricFor txns)).map (fun r => r.household_key)) =
      uniqueFirst (txns.map (fun t : Txn => t.household_key)) := by
    rw [hmapkey]
    exact uniqueFirst_flatMap_replicate _ _ hkeysnd hmonthsne
  unfold snapshots calculate_history_and_status calculate_monthly_metrics at hrow
  rw [huniq] at hrow
  rcases List.mem_flatMap.mp hrow with ⟨k, hkmem, hkrow⟩
  have hkmem' : k ∈ uniqueFirst (txns.map (fun t : Txn => t.household_key)) :=
    (mem_sortNat _ _).mp hkmem
  rw [create_customer_month_spine, filter_metrics_flatMap _ _ _ _ hkeysnd,
    if_pos hkmem'] at hkrow
  rw [enrichSeries] at hkrow
  rcases List.mem_map.mp hkrow with ⟨p, hp, hrow_eq⟩
  have hpfst : p.1 ∈ ffillLast none
      ((monthRange txns).map (fun m => metricFor txns (k, m))) :=
    (List.of_mem_zip hp).1
  have hbase : (none : Option Date) =
      listMax? ((custDates txns k).filter
        (fun d => decide (d.m < minMonth txns))) := by
    have hempty : (custDates txns k).filter
        (fun d => decide (d.m < minMonth txns)) = [] := by
      rw [List.filter_eq_nil_iff]
      intro d hd
      rcases List.mem_map.mp hd with ⟨t, htf, rfl⟩
      have htx : t ∈ txns := (List.mem_filter.mp htf).1
      have hdd : t.date ∈ txns.map (fun t : Txn => t.date) :=
        List.mem_map.mpr ⟨t, htx, rfl⟩
      rcases listMin?_isSome
        (show txns.map (fun t : Txn => t.date) ≠ [] from by simpa using hne)
        with ⟨dmin, hdmin⟩
      have hle : dmin ≤ t.date := listMin?_le hdd hdmin
      have hmin : minMonth txns ≤ t.date.m := by
        rw [minMonth, hdmin]
        exact Date.m_le_of_le hle
      simp only [decide_eq_true_eq]
      omega
    rw [hempty]
    rfl
  rw [monthRange] at hpfst
  rcases ffill_char txns k (maxMonth txns + 1 - minMonth txns) (minMonth txns)
    none hbase p.1 hpfst with ⟨m, hm1, hm2, he1, he2⟩
  refine ⟨k, m, (mem_uniqueFirst_iff _ _).mp hkmem', hm1, by omega, p.2, ?_⟩
  subst hrow_eq
  simp only [he1, he2]

/-- C9: for every snapshot row, the forward-filled last_purchase_anytime is
exactly the latest transaction date of that row's household over all months
up to and including the row's month — none while the household has not yet
purchased.  Nothing is taken from later months or from other households. -/
theorem c9_forward_fill_last_purchase (txns : List Txn) (row : EnrichedRow)
    (hrow : row ∈ snapshots txns) :
    row.last_purchase_anytime =
      listMax? (((txns.filter
        (fun t => t.household_key == row.household_key)).map
          (fun t => t.date)).filter (fun d => decide (d.m ≤ row.month))) := by
  rcases snapshots_row_char txns row hrow with ⟨k, m, _, _, _, roll, heq⟩
  subst heq
  rfl

/-- Witness for C9: the zero-purchase second month of household 1 inherits
the first month's purchase date. -/
theorem c9_forward_fill_last_purchase_witness :
    ((snapshots exTxns).getD 1 default).last_purchase_anytime =
      listMax? (((exTxns.filter (fun t =>
        t.household_key == ((snapshots exTxns).getD 1 default).household_key)).map
          (fun t => t.date)).filter
        (fun d => decide (d.m ≤ ((snapshots exTxns).getD 1 default).month))) :=
  c9_forward_fill_last_purchase exTxns ((snapshots exTxns).getD 1 default)
    (by decide)

theorem statusOf_iffs (lapsed : Int) :
    (statusOf lapsed = "Active" ↔ lapsed ≤ 14) ∧
    (statusOf lapsed = "At-Risk" ↔ 14 < lapsed ∧ lapsed ≤ 30) ∧
    (statusOf lapsed = "Churned" ↔ 30 < lapsed ∧ lapsed < 999) ∧
    (statusOf lapsed = "New/Unknown" ↔ 999 ≤ lapsed) := by
  unfold statusOf
  refine ⟨?_, ?_, ?_, ?_⟩ <;> split_ifs <;> simp_all <;> omega

theorem statusOf_le_30 (lapsed : Int) (h : lapsed ≤ 30) :
    statusOf lapsed = "Active" ∨ statusOf lapsed = "At-Risk" := by
  unfold statusOf
  split_ifs with h1
  · exact Or.inl rfl
  · exact Or.inr rfl

/-- C3 (amended): lapsed_days is the day difference between month_end and
the forward-filled last purchase date (sentinel 999 when still unknown);
the status ladder is evaluated in its fixed priority order, so
New/Unknown holds exactly when lapsed_days is at least the sentinel — in
particular every never-purchased row is New/Unknown, but so is a row whose
genuine lapse reaches 999 days. -/
theorem c3_lapsed_days_status (txns : List Txn) (row : EnrichedRow)
    (hrow : row ∈ snapshots txns) :
    (row.last_purchase_anytime = none → row.lapsed_days = 999) ∧
    (∀ dt, row.last_purchase_anytime = some dt →
      row.lapsed_days = (absDay row.month_end : Int) - (absDay dt : Int)) ∧
    (row.status = "Active" ↔ row.lapsed_days ≤ 14) ∧
    (row.status = "At-Risk" ↔ 14 < row.lapsed_days ∧ row.lapsed_days ≤ 30) ∧
    (row.status = "Churned" ↔ 30 < row.lapsed_days ∧ row.lapsed_days < 999) ∧
    (row.status = "New/Unknown" ↔ 999 ≤ row.lapsed_days) ∧
    (row.last_purchase_anytime = none ↔
      ((txns.filter (fun t => t.household_key == row.household_key)).map
        (fun t => t.date)).filter (fun d => decide (d.m ≤ row.month)) = []) := by
  rcases snapshots_row_char txns row hrow with ⟨k, m, _, _, _, roll, heq⟩
  subst heq
  refine ⟨?_, ?_, ?_, ?_, ?_, ?_, ?_⟩
  · intro h
    have hL : listMax? ((custDates txns k).filter (fun d => decide (d.m ≤ m))) =
        none := h
    rw [hL]
    rfl
  · intro dt h
    have hL : listMax? ((custDates txns k).filter (fun d => decide (d.m ≤ m))) =
        some dt := h
    rw [hL]
    rfl
  · exact (statusOf_iffs _).1
  · exact (statusOf_iffs _).2.1
  · exact (statusOf_iffs _).2.2.1
  · exact (statusOf_iffs _).2.2.2
  · exact listMax?_eq_none_iff

/-- Witness for C3 (amended) at the never-purchased row of household 2. -/
theorem c3_lapsed_days_status_witness :
    ((snapshots exTxns).getD 3 default).status = "New/Unknown" ↔
      999 ≤ ((snapshots exTxns).getD 3 default).lapsed_days :=
  (c3_lapsed_days_status exTxns ((snapshots exTxns).getD 3 default)
    (by decide)).2.2.2.2.2.1

/-- Transactions whose snapshot range spans 35 months: household 1 buys
only in month 0, household 2 only in month 34, so household 1's final rows
have a genuine lapse beyond the 999-day sentinel. -/
def exTxnsLong : List Txn := [⟨1, 1, 1, ⟨0, 1⟩⟩, ⟨2, 2, 1, ⟨34, 1⟩⟩]

/-- Counterexample to C3 as stated: household 1 has purchased (its
forward-filled last purchase date is month 0 day 1), yet its month-34 row
is classified New/Unknown, because its real lapse of more than 999 days
fails the `lapsed_days < 999` Churned guard.  So New/Unknown does not hold
exactly on never-purchased rows. -/
theorem c3_counterexample :
    34 < (snapshots exTxnsLong).length ∧
    ((snapshots exTxnsLong).getD 34 default).last_purchase_anytime =
      some ⟨0, 1⟩ ∧
    999 ≤ ((snapshots exTxnsLong).getD 34 default).lapsed_days ∧
    ((snapshots exTxnsLong).getD 34 default).status = "New/Unknown" := by
  decide

/-- C2 (amended): a month with no purchase has monthly_spend 0, and
monthly_spend is non-negative whenever no transaction has a negative
sales_amount; with returns (negative sales_amount) present a month's
monthly_spend is their signed sum and can be negative. -/
theorem c2_monthly_spend_amended (txns : List Txn) (row : EnrichedRow)
    (hrow : row ∈ snapshots txns) :
    (row.monthly_visits = 0 → row.monthly_spend = 0) ∧
    ((∀ t ∈ txns, 0 ≤ t.sales_value) → 0 ≤ row.monthly_spend) := by
  rcases snapshots_row_char txns row hrow with ⟨k, m, _, _, _, roll, heq⟩
  subst heq
  constructor
  · intro h0
    have hu : uniqueFirst ((txnsIn txns k m).map (fun t => t.basket_id)) = [] :=
      List.length_eq_zero.mp h0
    have hb : (txnsIn txns k m).map (fun t => t.basket_id) = [] :=
      uniqueFirst_eq_nil hu
    have ht : txnsIn txns k m = [] := List.map_eq_nil_iff.mp hb
    show ((txnsIn txns k m).map (fun t => t.sales_value)).sum = 0
    rw [ht]
    rfl
  · intro hpos
    show 0 ≤ ((txnsIn txns k m).map (fun t => t.sales_value)).sum
    refine List.sum_nonneg ?_
    intro x hx
    rcases List.mem_map.mp hx with ⟨t, htmem, rfl⟩
    exact hpos t (List.mem_filter.mp htmem).1

/-- Witness for C2 (amended) at a concrete all-positive dataset. -/
theorem c2_monthly_spend_amended_witness :
    0 ≤ ((snapshots exTxns).getD 0 default).monthly_spend :=
  (c2_monthly_spend_amended exTxns ((snapshots exTxns).getD 0 default)
    (by decide)).2 (by decide)

/-- A single return transaction: sales_amount is negative. -/
def exTxnsNeg : List Txn := [⟨1, 1, -5, ⟨0, 1⟩⟩]

/-- Counterexample to C2 as stated: a month whose only transaction is a
return has negative monthly_spend in the snapshot table. -/
theorem c2_counterexample :
    0 < (snapshots exTxnsNeg).length ∧
    ((snapshots exTxnsNeg).getD 0 default).monthly_spend < 0 := by
  decide

/-- C10: a snapshot row of a month in which the customer purchased
(monthly_visits > 0) has lapsed_days at most 30 — the last purchase of a
calendar month is at most 30 days before that month's end — and is
classified Active or At-Risk, never Churned or New/Unknown.  Requires only
that transaction days-of-month are at least 1 (valid calendar dates). -/
theorem c10_purchase_month_active (txns : List Txn)
    (hvalid : ∀ t ∈ txns, 1 ≤ t.date.d) (row : EnrichedRow)
    (hrow : row ∈ snapshots txns) (hv : 0 < row.monthly_visits) :
    row.lapsed_days ≤ 30 ∧ (row.status = "Active" ∨ row.status = "At-Risk") := by
  rcases snapshots_row_char txns row hrow with ⟨k, m, _, _, _, roll, heq⟩
  subst heq
  have hvm : 0 <
      (uniqueFirst ((txnsIn txns k m).map (fun t => t.basket_id))).length := hv
  have htne : txnsIn txns k m ≠ [] := by
    rintro he
    rw [he] at hvm
    simp [uniqueFirst, uniqueFirstAux_nil] at hvm
  obtain ⟨t0, ht0⟩ := List.exists_mem_of_ne_nil _ htne
  have ht0' := List.mem_filter.mp ht0
  have ht0k : t0.household_key = k ∧ t0.date.m = m := by simpa using ht0'.2
  have hdmem : t0.date ∈ (custDates txns k).filter
      (fun d => decide (d.m ≤ m)) := by
    rw [List.mem_filter]
    refine ⟨List.mem_map.mpr ⟨t0, List.mem_filter.mpr ⟨ht0'.1, ?_⟩, rfl⟩, ?_⟩
    · simp [ht0k.1]
    · simp [ht0k.2]
  rcases listMax?_isSome (List.ne_nil_of_mem hdmem) with ⟨dmax, hdmax⟩
  have hmemmax := listMax?_mem hdmax
  have hmaxle : dmax.m ≤ m := by
    have := (List.mem_filter.mp hmemmax).2
    simpa using this
  have hge : t0.date ≤ dmax := le_listMax? hdmem hdmax
  have hdm_eq : dmax.m = m := by
    have := Date.m_le_of_le hge
    omega
  have hmemcd : dmax ∈ custDates txns k := (List.mem_filter.mp hmemmax).1
  rcases List.mem_map.mp hmemcd with ⟨t1, ht1, ht1e⟩
  have hd1 : 1 ≤ dmax.d := by
    rw [← ht1e]
    exact hvalid t1 (List.mem_filter.mp ht1).1
  rw [hdmax]
  have habs : (absDay (monthEndDate m) : Int) - (absDay dmax : Int) ≤ 30 := by
    unfold absDay monthEndDate
    rw [hdm_eq]
    have h31 := daysInMonth_le_31 m
    push_cast
    omega
  refine ⟨habs, statusOf_le_30 _ habs⟩

/-- Witness for C10 at the purchase month of household 1. -/
theorem c10_purchase_month_active_witness :
    ((snapshots exTxns).getD 2 default).lapsed_days ≤ 30 ∧
      (((snapshots exTxns).getD 2 default).status = "Active" ∨
        ((snapshots exTxns).getD 2 default).status = "At-Risk") :=
  c10_purchase_month_active exTxns (by decide)
    ((snapshots exTxns).getD 2 default) (by decide) (by decide)

end LoyaltyLoop
